import Mathlib

set_option maxRecDepth 20000

/-!
Verification of the Scintomatic binary spectrum stream decoder.

The definitions below are a shallow embedding of the binary-block branch of
`interpreter` (Scintomatic.py lines 711-742), of `bytechunk_interpreter`
(lines 752-790) and of `byte_reconstructor` (lines 793-810), together with
the `=>End(binary)` and `Bitsum:` branches of `interpreter` (lines 652-668).
Byte buffers are `List Nat` values, the mutable fields
`self.interrupted_bytechunk` and `self.spectrumpanel.ydata` become an
explicit `DecState` record, and a raised Python exception becomes a `true`
error flag carried next to the updated state.
-/

namespace Scintomatic

/-- The reserved-byte substitution performed inside the translation loop of
`byte_reconstructor`: wire byte 253 stands for the value 13 and wire byte
254 for the value 35; every other byte stands for itself. -/
def translate_byte (b : Nat) : Nat :=
  if b = 253 then 13 else if b = 254 then 35 else b

/-- The translation loop of `byte_reconstructor` (lines 799-808): substitute
253 into 13 and 254 into 35, and stop at the first 252 (end-of-spectrum
indicator), discarding it and everything after it. -/
def translate_bytes : List Nat → List Nat
  | [] => []
  | b :: rest =>
    if b = 253 then 13 :: translate_bytes rest
    else if b = 254 then 35 :: translate_bytes rest
    else if b = 252 then []
    else b :: translate_bytes rest

/-- The positional combination of `byte_reconstructor` (lines 809-810):
`sum(byteval * (250 ** bytenum) for bytenum, byteval in enumerate(bytes))`. -/
def positional_sum (l : List Nat) : Nat :=
  (l.enum.map (fun p => p.2 * 250 ^ p.1)).sum

/-- `byte_reconstructor` (lines 793-810): translate the bytes (least
significant first) and combine them as base-250 digits. -/
def byte_reconstructor (l : List Nat) : Nat :=
  positional_sum (translate_bytes l)

/-- The `while chunkindex < len(decchunk)` loop of `bytechunk_interpreter`
(lines 771-783), entered for a chunk whose first byte is 251. The first
component is the updated `ydata`; the flag is `true` exactly when the loop
raises `IndexError` by reading the run-length byte `decchunk[chunkindex+1]`
past the end of the chunk. -/
def runRLE : List Nat → List Nat → List Nat × Bool
  | ydata, [] => (ydata, false)
  | ydata, b :: rest =>
    if b = 251 then
      match rest with
      | [] => (ydata, true)
      | n :: rest2 => runRLE (ydata ++ List.replicate (byte_reconstructor [n]) 0) rest2
    else if b = 252 then (ydata, false)
    else (ydata ++ [byte_reconstructor (b :: rest)], false)

/-- Processing of a single chunk by `bytechunk_interpreter` (lines 766-786):
an empty chunk is skipped, a chunk starting with 251 runs the zero-run loop,
and any other chunk appends one reconstructed value. -/
def processChunk (ydata : List Nat) : List Nat → List Nat × Bool
  | [] => (ydata, false)
  | b :: rest =>
    if b = 251 then runRLE ydata (b :: rest)
    else (ydata ++ [byte_reconstructor (b :: rest)], false)

/-- `bytechunk_interpreter` (lines 752-790): process a list of chunks in
order, extending `ydata`; an `IndexError` (flag `true`) aborts the remaining
chunks while keeping the values already appended. -/
def bytechunk_interpreter : List Nat → List (List Nat) → List Nat × Bool
  | ydata, [] => (ydata, false)
  | ydata, c :: cs =>
    match processChunk ydata c with
    | (y, true) => (y, true)
    | (y, false) => bytechunk_interpreter y cs

/-- The Python expression `rawbytes.split(b'\xff')` of line 712: split a
buffer on the separator byte 255, keeping empty pieces; the result is never
the empty list. -/
def split255 : List Nat → List (List Nat)
  | [] => [[]]
  | b :: rest =>
    if b = 255 then [] :: split255 rest
    else
      match split255 rest with
      | [] => [[b]]
      | c :: cs => (b :: c) :: cs

/-- The decoder state held across successive reads while `binaryblock` is
set: `interrupted` is `self.interrupted_bytechunk` and `ydata` is
`self.spectrumpanel.ydata`. -/
structure DecState where
  interrupted : List Nat
  ydata : List Nat
deriving DecidableEq

/-- First half of the fragment logic (lines 716-729): when a fragment is
held from the previous read, either prepend it as a complete chunk (the new
raw buffer starts with 255 or with 252) or concatenate it with the first
chunk of the new split. -/
def prependOrMerge (frag : List Nat) (raw : List Nat) (chunks : List (List Nat)) :
    List (List Nat) :=
  if frag = [] then chunks
  else if raw.head? = some 255 then frag :: chunks
  else if raw.head? = some 252 then frag :: chunks
  else
    match chunks with
    | [] => [frag]
    | c :: cs => (frag ++ c) :: cs

/-- Second half of the fragment logic (lines 730-740): when the raw buffer's
last byte is neither 255 nor 252, store the final chunk as the new fragment
and replace it by an empty chunk; otherwise clear the fragment. Returns the
chunks to interpret together with the new fragment. -/
def holdLast (raw : List Nat) (chunks : List (List Nat)) :
    List (List Nat) × List Nat :=
  if raw.getLast? = some 255 ∨ raw.getLast? = some 252 then (chunks, [])
  else (chunks.dropLast ++ [[]], chunks.getLastD [])

/-- One execution of the binary-block branch of `interpreter`
(lines 711-742) on one raw buffer: split on 255, apply the two-sided
fragment logic, and interpret the resulting chunks. The flag is `true` when
`bytechunk_interpreter` raised. -/
def binaryStep (st : DecState) (raw : List Nat) : DecState × Bool :=
  let chunks1 := prependOrMerge st.interrupted raw (split255 raw)
  let p := holdLast raw chunks1
  let r := bytechunk_interpreter st.ydata p.1
  (⟨p.2, r.1⟩, r.2)

/-- Outcome of the `=>End(binary)` handler: success, the deliberate
`ScintomaticError` for a spectrum length different from 1024, or an
`IndexError` escaping from the fragment flush. -/
inductive EndResult where
  | ok (ydata : List Nat)
  | lengthError (ydata : List Nat)
  | indexError
deriving DecidableEq

/-- The `=>End(binary)` branch of `interpreter` (lines 652-660): interpret
the held fragment as one final chunk, then raise `ScintomaticError` unless
`ydata` has exactly 1024 entries. An `IndexError` from the flush escapes
before the length check is reached. -/
def endBinary (frag : List Nat) (ydata : List Nat) : EndResult :=
  match bytechunk_interpreter ydata [frag] with
  | (_, true) => EndResult.indexError
  | (y, false) =>
      if y.length = 1024 then EndResult.ok y else EndResult.lengthError y

/-- The `Bitsum:` branch of `interpreter` (lines 661-668): compare the
instrument-reported bitsum with the locally accumulated one and choose the
progress-ring glyph. It only produces a display string and never raises. -/
def bitsumBranch (theirbitsum bitsum : Nat) : String :=
  if theirbitsum = bitsum then "✓" else "≈"

/-- Modelled from the spec: the little-endian base-250 digit expansion of a
value (least-significant digit first), the reverse of the positional
reconstruction of section 4.2; the repository contains only the decoder, the
encoding is performed by the instrument. -/
def enc250 (v : Nat) : List Nat :=
  if h : v = 0 then [] else v % 250 :: enc250 (v / 250)
decreasing_by exact Nat.div_lt_self (Nat.pos_of_ne_zero h) (by norm_num)

/-- Modelled from the spec: the wire form of one base-250 digit, the inverse
of the reserved-byte substitution (digit 13 is carried by wire byte 253 and
digit 35 by wire byte 254). -/
def wire_digit (d : Nat) : Nat :=
  if d = 13 then 253 else if d = 35 then 254 else d

/-- Modelled from the spec: encoding of a value as the wire bytes of its
little-endian base-250 digits (the reverse of section 4.2); the repository
contains only the decoder. -/
def encodeValue (v : Nat) : List Nat :=
  (enc250 v).map wire_digit

/-- A chunk following the wire grammar described in the source's
reverse-engineering notes (lines 671-709): zero or more `(251, runlength)`
pairs, optionally followed by the base-250 bytes of one value; the bytes 252
and 255 never occur inside a chunk, and a value's first byte is not 251. -/
inductive WFChunk : List Nat → Prop
  | nilc : WFChunk []
  | val (b : Nat) (bs : List Nat) (hb1 : b ≠ 251) (hb2 : b ≠ 252) (hb3 : b ≠ 255)
      (hbs : ∀ x ∈ bs, x ≠ 252 ∧ x ≠ 255) : WFChunk (b :: bs)
  | run (n : Nat) (hn2 : n ≠ 252) (hn3 : n ≠ 255) (c : List Nat) (hc : WFChunk c) :
      WFChunk (251 :: n :: c)

/-- A well-formed encoded spectrum byte stream, per the source's
reverse-engineering notes: a sequence of wire chunks each terminated by the
separator 255, optionally closed by the single end-of-stream byte 252. -/
inductive WFStream : List Nat → Prop
  | nil : WFStream []
  | endmark : WFStream [252]
  | record (c s : List Nat) (hc : WFChunk c) (hs : WFStream s) :
      WFStream (c ++ 255 :: s)

/-! ### Basic facts about `byte_reconstructor` -/

/-- Recursive form of the base-250 positional combination; used to reason
about `positional_sum`. -/
def base250 : List Nat → Nat
  | [] => 0
  | d :: rest => d + 250 * base250 rest

theorem enumFrom_positional (l : List Nat) :
    ∀ n, ((List.enumFrom n l).map (fun p => p.2 * 250 ^ p.1)).sum
      = 250 ^ n * base250 l := by
  induction l with
  | nil => intro n; simp [base250]
  | cons d rest ih =>
      intro n
      simp only [List.enumFrom_cons, List.map_cons, List.sum_cons, base250, ih (n + 1)]
      ring

theorem positional_sum_eq_base250 (l : List Nat) : positional_sum l = base250 l := by
  have h := enumFrom_positional l 0
  simpa [positional_sum, List.enum] using h

theorem byte_reconstructor_eq (l : List Nat) :
    byte_reconstructor l = base250 (translate_bytes l) :=
  positional_sum_eq_base250 _

theorem byte_reconstructor_single (n : Nat) (h2 : n ≠ 252) (h3 : n ≠ 253)
    (h4 : n ≠ 254) : byte_reconstructor [n] = n := by
  rw [byte_reconstructor_eq]
  simp [translate_bytes, h2, h3, h4, base250]

/-! ### Step equations for the decoding loops -/

theorem runRLE_nil (y : List Nat) : runRLE y [] = (y, false) := rfl

theorem runRLE_251_nil (y : List Nat) : runRLE y [251] = (y, true) := by
  rw [runRLE.eq_def]; simp

theorem runRLE_251_cons (y : List Nat) (n : Nat) (rest2 : List Nat) :
    runRLE y (251 :: n :: rest2)
      = runRLE (y ++ List.replicate (byte_reconstructor [n]) 0) rest2 := by
  rw [runRLE.eq_def]; simp

theorem runRLE_252 (y rest : List Nat) : runRLE y (252 :: rest) = (y, false) := by
  rw [runRLE.eq_def]; simp

theorem runRLE_other (y : List Nat) (b : Nat) (rest : List Nat) (h1 : b ≠ 251)
    (h2 : b ≠ 252) :
    runRLE y (b :: rest) = (y ++ [byte_reconstructor (b :: rest)], false) := by
  rw [runRLE.eq_def]; simp [h1, h2]

theorem processChunk_nil (y : List Nat) : processChunk y [] = (y, false) := rfl

theorem processChunk_251 (y : List Nat) (rest : List Nat) :
    processChunk y (251 :: rest) = runRLE y (251 :: rest) := by
  rw [processChunk.eq_def]; simp

theorem processChunk_other (y : List Nat) (b : Nat) (rest : List Nat) (h1 : b ≠ 251) :
    processChunk y (b :: rest) = (y ++ [byte_reconstructor (b :: rest)], false) := by
  rw [processChunk.eq_def]; simp [h1]

theorem interp_nil (y : List Nat) : bytechunk_interpreter y [] = (y, false) := rfl

theorem interp_cons (y : List Nat) (c : List Nat) (cs : List (List Nat)) :
    bytechunk_interpreter y (c :: cs)
      = (match processChunk y c with
         | (y1, true) => (y1, true)
         | (y1, false) => bytechunk_interpreter y1 cs) := by
  rw [bytechunk_interpreter.eq_def]

/-! ### Shift lemmas: the decoding loops only ever append to `ydata` -/

theorem runRLE_shift : ∀ (l y : List Nat),
    runRLE y l = (y ++ (runRLE [] l).1, (runRLE [] l).2)
  | [], y => by simp [runRLE_nil]
  | b :: rest, y => by
      by_cases hb : b = 251
      · subst hb
        match rest with
        | [] => simp [runRLE_251_nil]
        | n :: rest2 =>
            rw [runRLE_251_cons, runRLE_251_cons,
              runRLE_shift rest2 (y ++ List.replicate (byte_reconstructor [n]) 0),
              runRLE_shift rest2 ([] ++ List.replicate (byte_reconstructor [n]) 0)]
            simp
      · by_cases hc : b = 252
        · subst hc; simp [runRLE_252]
        · rw [runRLE_other y b rest hb hc, runRLE_other [] b rest hb hc]
          simp

theorem processChunk_shift (c y : List Nat) :
    processChunk y c = (y ++ (processChunk [] c).1, (processChunk [] c).2) := by
  match c with
  | [] => simp [processChunk_nil]
  | b :: rest =>
      by_cases hb : b = 251
      · subst hb
        rw [processChunk_251, processChunk_251]
        exact runRLE_shift (251 :: rest) y
      · rw [processChunk_other y b rest hb, processChunk_other [] b rest hb]
        simp

theorem interp_shift : ∀ (l : List (List Nat)) (y : List Nat),
    bytechunk_interpreter y l
      = (y ++ (bytechunk_interpreter [] l).1, (bytechunk_interpreter [] l).2)
  | [], y => by simp [interp_nil]
  | c :: cs, y => by
      rw [interp_cons, interp_cons, processChunk_shift c y, processChunk_shift c []]
      cases he : (processChunk [] c).2
      · simp only [he, List.nil_append]
        rw [interp_shift cs (y ++ (processChunk [] c).1),
          interp_shift cs ((processChunk [] c).1)]
        simp
      · simp [he]

/-- The values contributed by one chunk, and whether it raises. -/
def chunkVals (c : List Nat) : List Nat := (processChunk [] c).1

/-- Whether interpreting one chunk raises `IndexError`. -/
def chunkErr (c : List Nat) : Bool := (processChunk [] c).2

/-- The values contributed by a list of chunks when none of them raises. -/
def valsList : List (List Nat) → List Nat
  | [] => []
  | c :: cs => chunkVals c ++ valsList cs

theorem valsList_append (l1 l2 : List (List Nat)) :
    valsList (l1 ++ l2) = valsList l1 ++ valsList l2 := by
  induction l1 with
  | nil => simp [valsList]
  | cons c cs ih => simp [valsList, ih]

theorem chunkVals_nil : chunkVals [] = [] := rfl

theorem chunkErr_nil : chunkErr [] = false := rfl

theorem interp_noerr : ∀ (l : List (List Nat)) (y : List Nat),
    (∀ c ∈ l, chunkErr c = false) →
    bytechunk_interpreter y l = (y ++ valsList l, false)
  | [], y, _ => by simp [bytechunk_interpreter, valsList]
  | c :: cs, y, h => by
      have hc : chunkErr c = false := h c (by simp)
      rw [bytechunk_interpreter, processChunk_shift c y]
      simp only [chunkErr] at hc
      rw [hc]
      simp only
      rw [interp_noerr cs (y ++ (processChunk [] c).1) (fun d hd => h d (by simp [hd]))]
      simp [valsList, chunkVals]

/-! ### Facts about `split255` -/

/-- Joining helper for `split255` over an append: the last piece of the left
split is glued onto the first piece of the right split. -/
def glue (p : List Nat) : List (List Nat) → List (List Nat)
  | [] => [p]
  | c :: cs => (p ++ c) :: cs

theorem split255_nil : split255 [] = [[]] := rfl

theorem split255_cons_255 (rest : List Nat) :
    split255 (255 :: rest) = [] :: split255 rest := by
  rw [split255.eq_def]; simp

theorem split255_cons_other (b : Nat) (rest : List Nat) (hb : b ≠ 255) :
    split255 (b :: rest)
      = (match split255 rest with
         | [] => [[b]]
         | c :: cs => (b :: c) :: cs) := by
  rw [split255.eq_def]; simp [hb]

theorem split255_ne_nil : ∀ l : List Nat, split255 l ≠ []
  | [] => by simp [split255_nil]
  | b :: rest => by
      by_cases hb : b = 255
      · subst hb; simp [split255_cons_255]
      · rw [split255_cons_other b rest hb]
        cases h : split255 rest <;> simp

theorem split255_no255 : ∀ l : List Nat, (∀ b ∈ l, b ≠ 255) → split255 l = [l]
  | [], _ => rfl
  | b :: rest, h => by
      have hb : b ≠ 255 := h b (by simp)
      rw [split255_cons_other b rest hb,
        split255_no255 rest (fun x hx => h x (by simp [hx]))]

theorem split255_append : ∀ a b : List Nat,
    split255 (a ++ b)
      = (split255 a).dropLast ++ glue ((split255 a).getLastD []) (split255 b)
  | [], b => by
      obtain ⟨c, cs, hc⟩ := List.exists_cons_of_ne_nil (split255_ne_nil b)
      simp [split255_nil, glue, hc]
  | 255 :: a', b => by
      rw [List.cons_append, split255_cons_255, split255_cons_255, split255_append a' b]
      obtain ⟨c, cs, hc⟩ := List.exists_cons_of_ne_nil (split255_ne_nil a')
      rw [hc]
      cases cs with
      | nil => simp [glue, List.getLastD_eq_getLast?]
      | cons c2 cs' => simp [List.getLastD_eq_getLast?]
  | x :: a', b => by
      by_cases hx : x = 255
      · subst hx
        rw [List.cons_append, split255_cons_255, split255_cons_255, split255_append a' b]
        obtain ⟨c, cs, hc⟩ := List.exists_cons_of_ne_nil (split255_ne_nil a')
        rw [hc]
        cases cs with
        | nil => simp [glue, List.getLastD_eq_getLast?]
        | cons c2 cs' => simp [List.getLastD_eq_getLast?]
      · rw [List.cons_append, split255_cons_other x (a' ++ b) hx,
          split255_cons_other x a' hx, split255_append a' b]
        obtain ⟨c, cs, hc⟩ := List.exists_cons_of_ne_nil (split255_ne_nil a')
        rw [hc]
        cases cs with
        | nil =>
            obtain ⟨d, ds, hd⟩ := List.exists_cons_of_ne_nil (split255_ne_nil b)
            simp [glue, hd, List.getLastD_eq_getLast?]
        | cons c2 cs' =>
            simp only [List.dropLast_cons₂, List.cons_append]
            obtain ⟨d, ds, hd⟩ := List.exists_cons_of_ne_nil (split255_ne_nil b)
            simp [glue, hd, List.getLastD_eq_getLast?]

theorem split255_single_255 : split255 [255] = [[], []] := by
  rw [split255_cons_255]; rfl

theorem split255_getLastD_of_last255 (a : List Nat) (h : a.getLast? = some 255) :
    (split255 a).getLastD [] = [] := by
  obtain ⟨a', rfl⟩ := List.getLast?_eq_some_iff.mp h
  rw [split255_append a' [255], split255_single_255]
  simp [glue, List.getLastD_eq_getLast?, List.getLast?_append]

theorem split255_getLastD_of_last_other (a' : List Nat) (d : Nat) (hd : d ≠ 255) :
    split255 (a' ++ [d])
      = (split255 a').dropLast ++ [(split255 a').getLastD [] ++ [d]] := by
  rw [split255_append a' [d], split255_no255 [d] (by simp [hd])]
  rfl

theorem split255_getLastD_ne_nil (a : List Nat) (ha : a ≠ [])
    (h : a.getLast? ≠ some 255) : (split255 a).getLastD [] ≠ [] := by
  obtain ⟨d, hd⟩ : ∃ d, a.getLast? = some d := by
    cases hl : a.getLast? with
    | none => exact absurd (List.getLast?_eq_none_iff.mp hl) ha
    | some d => exact ⟨d, rfl⟩
  have hd255 : d ≠ 255 := fun hc => h (hc ▸ hd)
  obtain ⟨a', rfl⟩ := List.getLast?_eq_some_iff.mp hd
  rw [split255_getLastD_of_last_other a' d hd255]
  simp [List.getLastD_eq_getLast?, List.getLast?_append]

/-! ### Step equations for the fragment logic -/

theorem prependOrMerge_nil_frag (raw : List Nat) (chunks : List (List Nat)) :
    prependOrMerge [] raw chunks = chunks := by
  simp [prependOrMerge]

theorem prependOrMerge_prepend255 (frag raw : List Nat) (chunks : List (List Nat))
    (hf : frag ≠ []) (hr : raw.head? = some 255) :
    prependOrMerge frag raw chunks = frag :: chunks := by
  simp [prependOrMerge, hf, hr]

theorem prependOrMerge_prepend252 (frag raw : List Nat) (chunks : List (List Nat))
    (hf : frag ≠ []) (hr : raw.head? = some 252) :
    prependOrMerge frag raw chunks = frag :: chunks := by
  simp [prependOrMerge, hf, hr]

theorem prependOrMerge_merge (frag raw : List Nat) (c : List Nat)
    (cs : List (List Nat)) (hf : frag ≠ []) (h1 : raw.head? ≠ some 255)
    (h2 : raw.head? ≠ some 252) :
    prependOrMerge frag raw (c :: cs) = (frag ++ c) :: cs := by
  simp [prependOrMerge, hf, h1, h2]

theorem holdLast_clear (raw : List Nat) (chunks : List (List Nat))
    (h : raw.getLast? = some 255 ∨ raw.getLast? = some 252) :
    holdLast raw chunks = (chunks, []) := by
  simp [holdLast, h]

theorem holdLast_hold (raw : List Nat) (chunks : List (List Nat))
    (h1 : raw.getLast? ≠ some 255) (h2 : raw.getLast? ≠ some 252) :
    holdLast raw chunks = (chunks.dropLast ++ [[]], chunks.getLastD []) := by
  simp [holdLast, h1, h2]

theorem interp_nil_chunk_cons (y : List Nat) (cs : List (List Nat)) :
    bytechunk_interpreter y ([] :: cs) = bytechunk_interpreter y cs := by
  rw [interp_cons, processChunk_nil]

/-- Processing an empty raw buffer through the binary-block branch leaves
the state unchanged and raises nothing. -/
theorem binaryStep_nil_buffer (st : DecState) : binaryStep st [] = (st, false) := by
  obtain ⟨frag, y⟩ := st
  by_cases hf : frag = []
  · subst hf
    simp [binaryStep, split255_nil, prependOrMerge_nil_frag,
      holdLast_hold ([] : List Nat) [[]] (by simp) (by simp),
      interp_nil_chunk_cons, interp_nil, List.getLastD_eq_getLast?]
  · have hm : prependOrMerge frag [] [[]] = [frag] := by
      have := prependOrMerge_merge frag [] [] [] hf (by simp) (by simp)
      simpa using this
    simp [binaryStep, split255_nil, hm,
      holdLast_hold ([] : List Nat) [frag] (by simp) (by simp),
      interp_nil_chunk_cons, interp_nil, List.getLastD_eq_getLast?]

/-! ### Facts about well-formed chunks and streams -/

theorem wfchunk_bytes {c : List Nat} (hc : WFChunk c) :
    ∀ x ∈ c, x ≠ 252 ∧ x ≠ 255 := by
  induction hc with
  | nilc => simp
  | val b bs hb1 hb2 hb3 hbs =>
      intro x hx
      rcases List.mem_cons.mp hx with rfl | hx
      · exact ⟨hb2, hb3⟩
      · exact hbs x hx
  | run n hn2 hn3 c hc ih =>
      intro x hx
      rcases List.mem_cons.mp hx with rfl | hx
      · exact ⟨by norm_num, by norm_num⟩
      · rcases List.mem_cons.mp hx with rfl | hx
        · exact ⟨hn2, hn3⟩
        · exact ih x hx

theorem runRLE_wf {c : List Nat} (hc : WFChunk c) :
    ∀ y : List Nat, (runRLE y c).2 = false := by
  induction hc with
  | nilc => intro y; simp [runRLE_nil]
  | val b bs hb1 hb2 hb3 hbs =>
      intro y
      by_cases h252 : b = 252
      · subst h252; simp [runRLE_252]
      · simp [runRLE_other y b bs hb1 h252]
  | run n hn2 hn3 c hc ih =>
      intro y
      rw [runRLE_251_cons]
      exact ih _

theorem chunkErr_of_wfchunk {c : List Nat} (hc : WFChunk c) : chunkErr c = false := by
  cases hc with
  | nilc => rfl
  | val b bs hb1 hb2 hb3 hbs =>
      simp [chunkErr, processChunk_other [] b bs hb1]
  | run n hn2 hn3 c hc =>
      simp only [chunkErr, processChunk_251]
      exact runRLE_wf (WFChunk.run n hn2 hn3 c hc) []

theorem chunkErr_of_head_ne_251 {c : List Nat} (h : c.head? ≠ some 251) :
    chunkErr c = false := by
  match c with
  | [] => rfl
  | b :: rest =>
      have hb : b ≠ 251 := by simpa using h
      simp [chunkErr, processChunk_other [] b rest hb]

theorem split255_of_record (c s : List Nat) (hc : WFChunk c) :
    split255 (c ++ 255 :: s) = c :: split255 s := by
  rw [split255_append c (255 :: s),
    split255_no255 c (fun x hx => (wfchunk_bytes hc x hx).2), split255_cons_255]
  simp [glue]

theorem split255_wfstream {s : List Nat} (hs : WFStream s) :
    ∀ c ∈ split255 s, chunkErr c = false := by
  induction hs with
  | nil =>
      intro c hcm
      rw [split255_nil] at hcm
      simp at hcm
      simp [hcm, chunkErr_nil]
  | endmark =>
      intro c hcm
      have h252 : split255 [252] = [[252]] := by
        rw [split255_cons_other 252 [] (by norm_num), split255_nil]
      rw [h252] at hcm
      simp at hcm
      subst hcm
      exact chunkErr_of_head_ne_251 (by simp)
  | record c s hc hs ih =>
      intro d hdm
      rw [split255_of_record c s hc] at hdm
      rcases List.mem_cons.mp hdm with rfl | hdm
      · exact chunkErr_of_wfchunk hc
      · exact ih d hdm

/-- In a well-formed stream, a prefix ending in 252 is the whole stream, and
a suffix starting with 252 is preceded by nothing or by a separator 255. -/
theorem wfstream_boundary {s : List Nat} (hs : WFStream s) :
    ∀ k : Nat,
      ((s.take k).getLast? = some 252 → s.drop k = []) ∧
      ((s.drop k).head? = some 252 → s.take k = [] ∨ (s.take k).getLast? = some 255) := by
  induction hs with
  | nil => intro k; simp
  | endmark =>
      intro k
      cases k with
      | zero => simp
      | succ k => simp
  | record c s hc hs ih =>
      intro k
      by_cases hk : k ≤ c.length
      · constructor
        · intro hlast
          exfalso
          rw [List.take_append_of_le_length hk] at hlast
          obtain ⟨l', hl'⟩ := List.getLast?_eq_some_iff.mp hlast
          have h252 : (252 : Nat) ∈ c.take k := by rw [hl']; simp
          exact (wfchunk_bytes hc 252 (List.mem_of_mem_take h252)).1 rfl
        · intro hhead
          exfalso
          rw [List.drop_append_of_le_length hk] at hhead
          cases hdrop : c.drop k with
          | nil =>
              rw [hdrop] at hhead
              simp at hhead
          | cons x xs =>
              rw [hdrop] at hhead
              simp at hhead
              have hx : (252 : Nat) ∈ c.drop k := by rw [hdrop, hhead]; simp
              exact (wfchunk_bytes hc 252 (List.mem_of_mem_drop hx)).1 rfl
      · push_neg at hk
        obtain ⟨j, rfl⟩ : ∃ j, k = c.length + 1 + j := by
          refine ⟨k - (c.length + 1), ?_⟩
          omega
        have hsplit : c ++ 255 :: s = (c ++ [255]) ++ s := by simp
        have hlen : c.length + 1 + j = (c ++ [255]).length + j := by simp
        have htake : (c ++ 255 :: s).take (c.length + 1 + j) = c ++ 255 :: s.take j := by
          rw [hsplit, hlen, List.take_append]
          simp
        have hdrop : (c ++ 255 :: s).drop (c.length + 1 + j) = s.drop j := by
          rw [hsplit, hlen, List.drop_append]
        constructor
        · intro hlast
          rw [htake] at hlast
          rw [hdrop]
          cases htj : s.take j with
          | nil =>
              exfalso
              rw [htj] at hlast
              have h255 : (c ++ [255]).getLast? = some 255 := List.getLast?_concat c
              rw [show c ++ 255 :: ([] : List Nat) = c ++ [255] from rfl, h255] at hlast
              simp at hlast
          | cons x xs =>
              have h1 : (s.take j).getLast? = some 252 := by
                rw [htj]
                have hcast : c ++ 255 :: s.take j = (c ++ [255]) ++ s.take j := by simp
                rw [hcast, htj, List.getLast?_append] at hlast
                cases hgl : (x :: xs).getLast? with
                | none => exact absurd (List.getLast?_eq_none_iff.mp hgl) (by simp)
                | some g =>
                    rw [hgl] at hlast
                    simpa using hlast
              exact (ih j).1 h1
        · intro hhead
          rw [hdrop] at hhead
          rw [htake]
          right
          rcases (ih j).2 hhead with h1 | h1
          · rw [h1]
            exact List.getLast?_concat c
          · obtain ⟨l', hl'⟩ := List.getLast?_eq_some_iff.mp h1
            rw [hl']
            have hcast : c ++ 255 :: (l' ++ [255]) = (c ++ 255 :: l') ++ [255] := by simp
            rw [hcast]
            exact List.getLast?_concat _

/-! ### Evaluating one `binaryStep` from a clean state -/

theorem glue_nil_left (l : List (List Nat)) (hl : l ≠ []) : glue [] l = l := by
  cases l with
  | nil => exact absurd rfl hl
  | cons c cs => simp [glue]

theorem getLastD_append_right (l1 l2 : List (List Nat)) (h : l2 ≠ []) :
    (l1 ++ l2).getLastD [] = l2.getLastD [] := by
  rw [List.getLastD_eq_getLast?, List.getLastD_eq_getLast?,
    List.getLast?_append_of_ne_nil l1 h]

theorem valsList_getLastD (l : List (List Nat)) (hl : l ≠ []) :
    valsList l = valsList l.dropLast ++ chunkVals (l.getLastD []) := by
  conv_lhs => rw [← List.dropLast_append_getLast hl]
  rw [valsList_append, List.getLastD_eq_getLast?, List.getLast?_eq_getLast l hl]
  simp [valsList]

/-- A `binaryStep` from a clean (no pending fragment) state on a buffer that
ends in 255 or 252: every split chunk is interpreted, no fragment is kept. -/
theorem binaryStep_clean_terminated (y : List Nat) (a : List Nat)
    (ha : a.getLast? = some 255 ∨ a.getLast? = some 252)
    (hE : ∀ c ∈ split255 a, chunkErr c = false) :
    binaryStep ⟨[], y⟩ a = (⟨[], y ++ valsList (split255 a)⟩, false) := by
  simp only [binaryStep, prependOrMerge_nil_frag, holdLast_clear a _ ha]
  rw [interp_noerr (split255 a) y hE]

/-- A `binaryStep` from a clean state on a buffer that ends in neither 255
nor 252: the last split chunk becomes the new fragment and is replaced by an
empty chunk before interpretation. -/
theorem binaryStep_clean_unterminated (y : List Nat) (a : List Nat)
    (h1 : a.getLast? ≠ some 255) (h2 : a.getLast? ≠ some 252)
    (hE : ∀ c ∈ (split255 a).dropLast, chunkErr c = false) :
    binaryStep ⟨[], y⟩ a
      = (⟨(split255 a).getLastD [], y ++ valsList ((split255 a).dropLast)⟩, false) := by
  simp only [binaryStep, prependOrMerge_nil_frag, holdLast_hold a _ h1 h2]
  rw [interp_noerr ((split255 a).dropLast ++ [[]]) y]
  · rw [valsList_append]
    simp [valsList, chunkVals_nil]
  · intro c hc
    rcases List.mem_append.mp hc with hc | hc
    · exact hE c hc
    · simp at hc
      simp [hc, chunkErr_nil]

theorem eq_dropLast_append_getLastD (l : List (List Nat)) (hl : l ≠ []) :
    l = l.dropLast ++ [l.getLastD []] := by
  conv_lhs => rw [← List.dropLast_append_getLast hl]
  rw [List.getLastD_eq_getLast?, List.getLast?_eq_getLast l hl]
  rfl

theorem binaryStep_terminated_eval (st : DecState) (raw : List Nat)
    (hlast : raw.getLast? = some 255 ∨ raw.getLast? = some 252)
    (hE : ∀ c ∈ prependOrMerge st.interrupted raw (split255 raw), chunkErr c = false) :
    binaryStep st raw
      = (⟨[], st.ydata ++ valsList (prependOrMerge st.interrupted raw (split255 raw))⟩,
         false) := by
  simp only [binaryStep, holdLast_clear _ _ hlast]
  rw [interp_noerr _ _ hE]

theorem binaryStep_unterminated_eval (st : DecState) (raw : List Nat)
    (h1 : raw.getLast? ≠ some 255) (h2 : raw.getLast? ≠ some 252)
    (hE : ∀ c ∈ (prependOrMerge st.interrupted raw (split255 raw)).dropLast,
      chunkErr c = false) :
    binaryStep st raw
      = (⟨(prependOrMerge st.interrupted raw (split255 raw)).getLastD [],
          st.ydata ++ valsList ((prependOrMerge st.interrupted raw (split255 raw)).dropLast)⟩,
         false) := by
  simp only [binaryStep, holdLast_hold _ _ h1 h2]
  rw [interp_noerr _ _ (fun c hc => ?_)]
  · rw [valsList_append]
    simp [valsList, chunkVals_nil]
  · rcases List.mem_append.mp hc with hc | hc
    · exact hE c hc
    · simp at hc
      simp [hc, chunkErr_nil]

theorem binaryStep_clean_noerr (y a : List Nat)
    (hE : ∀ c ∈ split255 a, chunkErr c = false) :
    (binaryStep ⟨[], y⟩ a).2 = false := by
  by_cases hl : a.getLast? = some 255 ∨ a.getLast? = some 252
  · rw [binaryStep_clean_terminated y a hl hE]
  · push_neg at hl
    rw [binaryStep_clean_unterminated y a hl.1 hl.2
      (fun c hc => hE c (List.dropLast_subset _ hc))]

theorem getLastD_cons_right (p : List Nat) (l : List (List Nat)) (h : l ≠ []) :
    (p :: l).getLastD [] = l.getLastD [] := by
  rw [List.getLastD_eq_getLast?, List.getLastD_eq_getLast?,
    show p :: l = [p] ++ l from rfl, List.getLast?_append_of_ne_nil [p] h]

/-! ### Composition: processing `a ++ b` equals processing `a` then `b` -/

theorem binaryStep_append (y : List Nat) (a b : List Nat)
    (hE : ∀ c ∈ split255 (a ++ b), chunkErr c = false)
    (h252a : a.getLast? = some 252 → b = [])
    (h252b : b.head? = some 252 → a = [] ∨ a.getLast? = some 255) :
    binaryStep ((binaryStep ⟨[], y⟩ a).1) b = binaryStep ⟨[], y⟩ (a ++ b)
      ∧ (binaryStep ⟨[], y⟩ a).2 = false
      ∧ (binaryStep ⟨[], y⟩ (a ++ b)).2 = false := by
  by_cases hb : b = []
  · subst hb
    rw [List.append_nil] at hE ⊢
    have hf : (binaryStep ⟨[], y⟩ a).2 = false := binaryStep_clean_noerr y a hE
    refine ⟨?_, hf, hf⟩
    rw [binaryStep_nil_buffer]
    exact Prod.ext rfl hf.symm
  by_cases ha : a = []
  · subst ha
    rw [List.nil_append] at hE ⊢
    have h1 : (binaryStep ⟨[], y⟩ ([] : List Nat)).1 = ⟨[], y⟩ := by
      rw [binaryStep_nil_buffer]
    have h2 : (binaryStep ⟨[], y⟩ ([] : List Nat)).2 = false := by
      rw [binaryStep_nil_buffer]
    rw [h1]
    exact ⟨rfl, h2, binaryStep_clean_noerr y b hE⟩
  obtain ⟨d, hd⟩ : ∃ d, a.getLast? = some d := by
    cases hga : a.getLast? with
    | none => exact absurd (List.getLast?_eq_none_iff.mp hga) ha
    | some d => exact ⟨d, rfl⟩
  have hSAB := split255_append a b
  have hEa : ∀ c ∈ (split255 a).dropLast, chunkErr c = false := by
    intro c hc
    apply hE
    rw [hSAB]
    exact List.mem_append_left _ hc
  have hablast : (a ++ b).getLast? = b.getLast? := List.getLast?_append_of_ne_nil a hb
  by_cases hd255 : d = 255
  · -- the first buffer ends exactly at a separator
    subst hd255
    have hPnil : (split255 a).getLastD [] = [] := split255_getLastD_of_last255 a hd
    have hSAB' : split255 (a ++ b) = (split255 a).dropLast ++ split255 b := by
      rw [hSAB, hPnil, glue_nil_left _ (split255_ne_nil b)]
    have hEb : ∀ c ∈ split255 b, chunkErr c = false := by
      intro c hc
      apply hE
      rw [hSAB']
      exact List.mem_append_right _ hc
    have hSAfull : ∀ c ∈ split255 a, chunkErr c = false := by
      intro c hc
      rw [eq_dropLast_append_getLastD (split255 a) (split255_ne_nil a), hPnil] at hc
      rcases List.mem_append.mp hc with hc | hc
      · exact hEa c hc
      · simp at hc
        simp [hc, chunkErr_nil]
    have hvalsSA : valsList (split255 a) = valsList ((split255 a).dropLast) := by
      conv_lhs =>
        rw [eq_dropLast_append_getLastD (split255 a) (split255_ne_nil a), hPnil]
      rw [valsList_append]
      simp [valsList, chunkVals_nil]
    have hr1 := binaryStep_clean_terminated y a (Or.inl hd) hSAfull
    rw [hr1]
    by_cases hbl : b.getLast? = some 255 ∨ b.getLast? = some 252
    · have hchain := binaryStep_clean_terminated (y ++ valsList (split255 a)) b hbl hEb
      have hsingle := binaryStep_clean_terminated y (a ++ b)
        (by rw [hablast]; exact hbl) hE
      rw [hchain, hsingle]
      refine ⟨?_, rfl, rfl⟩
      have hv : valsList (split255 (a ++ b))
          = valsList ((split255 a).dropLast) ++ valsList (split255 b) := by
        rw [hSAB', valsList_append]
      simp [hv, hvalsSA, List.append_assoc]
    · push_neg at hbl
      have hEb' : ∀ c ∈ (split255 b).dropLast, chunkErr c = false :=
        fun c hc => hEb c (List.dropLast_subset _ hc)
      have hchain := binaryStep_clean_unterminated (y ++ valsList (split255 a)) b
        hbl.1 hbl.2 hEb'
      have hsingle := binaryStep_clean_unterminated y (a ++ b)
        (by rw [hablast]; exact hbl.1) (by rw [hablast]; exact hbl.2)
        (fun c hc => hE c (List.dropLast_subset _ hc))
      rw [hchain, hsingle]
      refine ⟨?_, rfl, rfl⟩
      have hfrag : (split255 (a ++ b)).getLastD [] = (split255 b).getLastD [] := by
        rw [hSAB', getLastD_append_right _ _ (split255_ne_nil b)]
      have hdl : (split255 (a ++ b)).dropLast
          = (split255 a).dropLast ++ (split255 b).dropLast := by
        rw [hSAB', List.dropLast_append_of_ne_nil _ (split255_ne_nil b)]
      rw [hfrag, hdl]
      simp [valsList_append, hvalsSA, List.append_assoc]
  · -- the first buffer ends inside a chunk
    have hd252 : d ≠ 252 := by
      intro hcon
      exact hb (h252a (hcon ▸ hd))
    have h1a : a.getLast? ≠ some 255 := by rw [hd]; simp [hd255]
    have h2a : a.getLast? ≠ some 252 := by rw [hd]; simp [hd252]
    have hP : (split255 a).getLastD [] ≠ [] := split255_getLastD_ne_nil a ha h1a
    have hr1 := binaryStep_clean_unterminated y a h1a h2a hEa
    rw [hr1]
    obtain ⟨c0, b', rfl⟩ := List.exists_cons_of_ne_nil hb
    by_cases hc0252 : c0 = 252
    · exfalso
      subst hc0252
      rcases h252b (by simp) with hcon | hcon
      · exact ha hcon
      · exact h1a hcon
    by_cases hc0255 : c0 = 255
    · -- the held fragment was a complete chunk: prepend it
      subst hc0255
      have hSB : split255 (255 :: b') = [] :: split255 b' := split255_cons_255 b'
      have hSAB' : split255 (a ++ 255 :: b')
          = (split255 a).dropLast ++ (split255 a).getLastD [] :: split255 b' := by
        rw [hSAB, hSB]
        simp [glue]
      have hpm : prependOrMerge ((split255 a).getLastD []) (255 :: b')
          (split255 (255 :: b'))
          = (split255 a).getLastD [] :: [] :: split255 b' := by
        rw [hSB]
        exact prependOrMerge_prepend255 _ _ _ hP (by simp)
      have hEmid : chunkErr ((split255 a).getLastD []) = false := by
        apply hE
        rw [hSAB']
        exact List.mem_append_right _ (by simp)
      have hET : ∀ c ∈ split255 b', chunkErr c = false := by
        intro c hc
        apply hE
        rw [hSAB']
        exact List.mem_append_right _ (by simp [hc])
      by_cases hbl : (255 :: b').getLast? = some 255 ∨ (255 :: b').getLast? = some 252
      · have hchain := binaryStep_terminated_eval
          ⟨(split255 a).getLastD [], y ++ valsList ((split255 a).dropLast)⟩
          (255 :: b') hbl (by
            rw [hpm]
            intro c hc
            rcases List.mem_cons.mp hc with rfl | hc
            · exact hEmid
            · rcases List.mem_cons.mp hc with rfl | hc
              · exact chunkErr_nil
              · exact hET c hc)
        have hsingle := binaryStep_clean_terminated y (a ++ 255 :: b')
          (by rw [hablast]; exact hbl) hE
        rw [hchain, hsingle]
        refine ⟨?_, rfl, rfl⟩
        rw [hpm]
        have hv : valsList (split255 (a ++ 255 :: b'))
            = valsList ((split255 a).dropLast)
              ++ (chunkVals ((split255 a).getLastD []) ++ valsList (split255 b')) := by
          rw [hSAB', valsList_append]
          rfl
        simp [hv, valsList, chunkVals_nil, List.append_assoc]
      · push_neg at hbl
        have hT : split255 b' ≠ [] := split255_ne_nil b'
        have hchain := binaryStep_unterminated_eval
          ⟨(split255 a).getLastD [], y ++ valsList ((split255 a).dropLast)⟩
          (255 :: b') hbl.1 hbl.2 (by
            rw [hpm]
            intro c hc
            have hsub : c ∈ (split255 a).getLastD [] :: [] :: split255 b' :=
              List.dropLast_subset _ hc
            rcases List.mem_cons.mp hsub with rfl | hsub
            · exact hEmid
            · rcases List.mem_cons.mp hsub with rfl | hsub
              · exact chunkErr_nil
              · exact hET c hsub)
        have hsingle := binaryStep_clean_unterminated y (a ++ 255 :: b')
          (by rw [hablast]; exact hbl.1) (by rw [hablast]; exact hbl.2)
          (fun c hc => hE c (List.dropLast_subset _ hc))
        rw [hchain, hsingle]
        refine ⟨?_, rfl, rfl⟩
        rw [hpm]
        have hfrag2 : ((split255 a).getLastD [] :: [] :: split255 b').getLastD []
            = (split255 b').getLastD [] := by
          rw [getLastD_cons_right _ _ (by simp), getLastD_cons_right _ _ hT]
        have hfrag1 : (split255 (a ++ 255 :: b')).getLastD []
            = (split255 b').getLastD [] := by
          rw [hSAB', getLastD_append_right _ _ (by simp),
            getLastD_cons_right _ _ hT]
        have hdl2 : ((split255 a).getLastD [] :: [] :: split255 b').dropLast
            = (split255 a).getLastD [] :: [] :: (split255 b').dropLast := by
          rw [List.dropLast_cons_of_ne_nil (by simp),
            List.dropLast_cons_of_ne_nil hT]
        have hdl1 : (split255 (a ++ 255 :: b')).dropLast
            = (split255 a).dropLast
              ++ (split255 a).getLastD [] :: (split255 b').dropLast := by
          rw [hSAB', List.dropLast_append_of_ne_nil _ (by simp),
            List.dropLast_cons_of_ne_nil hT]

        rw [hfrag1, hfrag2, hdl1, hdl2]
        simp [valsList_append, valsList, chunkVals_nil, List.append_assoc]
    · -- the held fragment is merged with the continuation chunk
      obtain ⟨c1, T, hSBd⟩ := List.exists_cons_of_ne_nil (split255_ne_nil (c0 :: b'))
      have hpm : prependOrMerge ((split255 a).getLastD []) (c0 :: b')
          (split255 (c0 :: b'))
          = ((split255 a).getLastD [] ++ c1) :: T := by
        rw [hSBd]
        exact prependOrMerge_merge _ _ _ _ hP (by simp [hc0255]) (by simp [hc0252])
      have hSAB' : split255 (a ++ c0 :: b')
          = (split255 a).dropLast ++ ((split255 a).getLastD [] ++ c1) :: T := by
        rw [hSAB, hSBd]
        simp [glue]
      have hEmid : chunkErr ((split255 a).getLastD [] ++ c1) = false := by
        apply hE
        rw [hSAB']
        exact List.mem_append_right _ (by simp)
      have hET : ∀ c ∈ T, chunkErr c = false := by
        intro c hc
        apply hE
        rw [hSAB']
        exact List.mem_append_right _ (by simp [hc])
      by_cases hbl : (c0 :: b').getLast? = some 255 ∨ (c0 :: b').getLast? = some 252
      · have hchain := binaryStep_terminated_eval
          ⟨(split255 a).getLastD [], y ++ valsList ((split255 a).dropLast)⟩
          (c0 :: b') hbl (by
            rw [hpm]
            intro c hc
            rcases List.mem_cons.mp hc with rfl | hc
            · exact hEmid
            · exact hET c hc)
        have hsingle := binaryStep_clean_terminated y (a ++ c0 :: b')
          (by rw [hablast]; exact hbl) hE
        rw [hchain, hsingle]
        refine ⟨?_, rfl, rfl⟩
        rw [hpm]
        have hv : valsList (split255 (a ++ c0 :: b'))
            = valsList ((split255 a).dropLast)
              ++ (chunkVals ((split255 a).getLastD [] ++ c1) ++ valsList T) := by
          rw [hSAB', valsList_append]
          rfl
        simp [hv, valsList, List.append_assoc]
      · push_neg at hbl
        have hchain := binaryStep_unterminated_eval
          ⟨(split255 a).getLastD [], y ++ valsList ((split255 a).dropLast)⟩
          (c0 :: b') hbl.1 hbl.2 (by
            rw [hpm]
            intro c hc
            have hsub : c ∈ ((split255 a).getLastD [] ++ c1) :: T :=
              List.dropLast_subset _ hc
            rcases List.mem_cons.mp hsub with rfl | hsub
            · exact hEmid
            · exact hET c hsub)
        have hsingle := binaryStep_clean_unterminated y (a ++ c0 :: b')
          (by rw [hablast]; exact hbl.1) (by rw [hablast]; exact hbl.2)
          (fun c hc => hE c (List.dropLast_subset _ hc))
        rw [hchain, hsingle]
        refine ⟨?_, rfl, rfl⟩
        rw [hpm]
        have hfrag1 : (split255 (a ++ c0 :: b')).getLastD []
            = (((split255 a).getLastD [] ++ c1) :: T).getLastD [] := by
          rw [hSAB', getLastD_append_right _ _ (by simp)]
        have hdl1 : (split255 (a ++ c0 :: b')).dropLast
            = (split255 a).dropLast ++ (((split255 a).getLastD [] ++ c1) :: T).dropLast := by
          rw [hSAB', List.dropLast_append_of_ne_nil _ (by simp)]
        rw [hfrag1, hdl1]
        simp [valsList_append, valsList, List.append_assoc]

/-! ### Round-trip of the base-250 encoding -/

theorem translate_bytes_wire (d : Nat) (hd : d < 250) (l : List Nat) :
    translate_bytes (wire_digit d :: l) = d :: translate_bytes l := by
  by_cases h13 : d = 13
  · subst h13
    simp [wire_digit, translate_bytes]
  · by_cases h35 : d = 35
    · subst h35
      simp [wire_digit, translate_bytes]
    · have hw : wire_digit d = d := by simp [wire_digit, h13, h35]
      rw [hw]
      have h1 : d ≠ 253 := by omega
      have h2 : d ≠ 254 := by omega
      have h3 : d ≠ 252 := by omega
      simp [translate_bytes, h1, h2, h3]

theorem byte_reconstructor_encodeValue : ∀ v : Nat,
    byte_reconstructor (encodeValue v) = v := by
  intro v
  induction v using Nat.strong_induction_on with
  | _ v ih =>
    by_cases h0 : v = 0
    · subst h0
      have henc : enc250 0 = [] := by rw [enc250]; simp
      simp [encodeValue, henc, byte_reconstructor, translate_bytes, positional_sum]
    · have hstep : enc250 v = v % 250 :: enc250 (v / 250) := by
        rw [enc250]
        simp [h0]
      rw [encodeValue, hstep, List.map_cons, byte_reconstructor_eq,
        translate_bytes_wire (v % 250) (Nat.mod_lt _ (by norm_num))]
      have ihv := ih (v / 250) (Nat.div_lt_self (Nat.pos_of_ne_zero h0) (by norm_num))
      rw [encodeValue, byte_reconstructor_eq] at ihv
      rw [base250, ihv]
      omega

/-! ## Claim theorems -/

/-- C6: for every v in [1, 15624999], encoding v as its little-endian
base-250 digit sequence (digits 13 and 35 carried by wire bytes 253 and 254)
and reconstructing it through `byte_reconstructor` yields exactly v. -/
theorem base250_roundtrip (v : Nat) (h1 : 1 ≤ v) (h2 : v ≤ 15624999) :
    byte_reconstructor (encodeValue v) = v :=
  byte_reconstructor_encodeValue v

/-- Witness for C6 at the spec's scenario value 300. -/
theorem base250_roundtrip_witness :
    1 ≤ 300 ∧ 300 ≤ 15624999 ∧ byte_reconstructor (encodeValue 300) = 300 :=
  ⟨by norm_num, by norm_num, base250_roundtrip 300 (by norm_num) (by norm_num)⟩

/-- C7: a zero-run pair (251, n) with n in [1, 251] appends exactly n zero
entries: the run loop consumes the pair and extends `ydata` with n zeros,
and a chunk consisting of just the pair contributes exactly n zeros. -/
theorem zero_run_appends (y : List Nat) (n : Nat) (rest : List Nat)
    (h1 : 1 ≤ n) (h2 : n ≤ 251) :
    runRLE y (251 :: n :: rest) = runRLE (y ++ List.replicate n 0) rest
      ∧ bytechunk_interpreter y [[251, n]] = (y ++ List.replicate n 0, false) := by
  have hn : byte_reconstructor [n] = n :=
    byte_reconstructor_single n (by omega) (by omega) (by omega)
  have hpair : runRLE y (251 :: n :: ([] : List Nat))
      = runRLE (y ++ List.replicate n 0) [] := by
    rw [runRLE_251_cons, hn]
  refine ⟨by rw [runRLE_251_cons, hn], ?_⟩
  have hpc : processChunk y [251, n] = (y ++ List.replicate n 0, false) := by
    rw [processChunk_251]
    rw [show ([251, n] : List Nat) = 251 :: n :: [] from rfl, hpair, runRLE_nil]
  rw [interp_cons, hpc]
  rfl

/-- Witness for C7 at n = 5. -/
theorem zero_run_appends_witness :
    1 ≤ 5 ∧ 5 ≤ 251
      ∧ bytechunk_interpreter [] [[251, 5]] = ([0, 0, 0, 0, 0], false) := by
  refine ⟨by norm_num, by norm_num, ?_⟩
  have h := (zero_run_appends [] 5 [] (by norm_num) (by norm_num)).2
  simpa using h

/-- C8: `byte_reconstructor` ignores the first 252 and everything after it:
its result is the positional sum of the translated bytes strictly before the
first 252; a list headed by 252 and the empty list both give 0. -/
theorem reconstructor_ignores_after_252 (l : List Nat) :
    byte_reconstructor l
        = positional_sum ((l.takeWhile (fun b => b != 252)).map translate_byte)
      ∧ byte_reconstructor (252 :: l) = 0
      ∧ byte_reconstructor [] = 0 := by
  have key : ∀ m : List Nat,
      translate_bytes m = (m.takeWhile (fun b => b != 252)).map translate_byte := by
    intro m
    induction m with
    | nil => rfl
    | cons b rest ih =>
        by_cases h3 : b = 253
        · subst h3
          simp [translate_bytes, translate_byte, ih]
        · by_cases h4 : b = 254
          · subst h4
            simp [translate_bytes, translate_byte, ih]
          · by_cases h2 : b = 252
            · subst h2
              simp [translate_bytes]
            · simp [translate_bytes, translate_byte, h3, h4, h2, ih]
  refine ⟨by rw [byte_reconstructor, key], ?_, rfl⟩
  rw [byte_reconstructor]
  simp [translate_bytes, positional_sum]

/-- C9: the run-length byte of a zero-run pair goes through the same
reserved-byte substitution as value digits: (251, 253) appends 13 zeros and
(251, 254) appends 35 zeros. -/
theorem zero_run_reserved_subst (y : List Nat) :
    bytechunk_interpreter y [[251, 253]] = (y ++ List.replicate 13 0, false)
      ∧ bytechunk_interpreter y [[251, 254]] = (y ++ List.replicate 35 0, false) := by
  have h253 : byte_reconstructor [253] = 13 := by
    rw [byte_reconstructor_eq]
    simp [translate_bytes, base250]
  have h254 : byte_reconstructor [254] = 35 := by
    rw [byte_reconstructor_eq]
    simp [translate_bytes, base250]
  constructor
  · have hpc : processChunk y [251, 253] = (y ++ List.replicate 13 0, false) := by
      rw [processChunk_251, show ([251, 253] : List Nat) = 251 :: 253 :: [] from rfl,
        runRLE_251_cons, h253, runRLE_nil]
    rw [interp_cons, hpc]
    rfl
  · have hpc : processChunk y [251, 254] = (y ++ List.replicate 35 0, false) := by
      rw [processChunk_251, show ([251, 254] : List Nat) = 251 :: 254 :: [] from rfl,
        runRLE_251_cons, h254, runRLE_nil]
    rw [interp_cons, hpc]
    rfl

/-- C1: for every well-formed encoded spectrum byte stream and every byte
offset at which the stream is split into two raw buffers presented in order,
running the two buffers through the fragment-reassembly step and chunk
interpretation yields exactly the decoder state (`DecodedSpectrum` and
pending fragment) produced by processing the unsplit stream as a single
buffer, and no step raises. -/
theorem fragmentation_robust (s : List Nat) (hs : WFStream s) (k : Nat)
    (y : List Nat) :
    binaryStep ((binaryStep ⟨[], y⟩ (s.take k)).1) (s.drop k) = binaryStep ⟨[], y⟩ s
      ∧ (binaryStep ⟨[], y⟩ (s.take k)).2 = false
      ∧ (binaryStep ⟨[], y⟩ s).2 = false := by
  have hcat : s.take k ++ s.drop k = s := List.take_append_drop k s
  have hE : ∀ c ∈ split255 (s.take k ++ s.drop k), chunkErr c = false := by
    rw [hcat]
    exact split255_wfstream hs
  have hbd := wfstream_boundary hs k
  have hmain := binaryStep_append y (s.take k) (s.drop k) hE hbd.1 hbd.2
  rw [hcat] at hmain
  exact hmain

/-- Witness for C1 at the stream `[10, 255]` split at offset 1. -/
theorem fragmentation_robust_witness :
    WFStream [10, 255]
      ∧ (binaryStep ((binaryStep ⟨[], []⟩ ([10, 255].take 1)).1) ([10, 255].drop 1)
            = binaryStep ⟨[], []⟩ [10, 255]
          ∧ (binaryStep ⟨[], ([] : List Nat)⟩ ([10, 255].take 1)).2 = false
          ∧ (binaryStep ⟨[], ([] : List Nat)⟩ [10, 255]).2 = false) := by
  have hwf : WFStream [10, 255] := by
    have h := WFStream.record [10] []
      (WFChunk.val 10 [] (by norm_num) (by norm_num) (by norm_num) (by simp))
      WFStream.nil
    simpa using h
  exact ⟨hwf, fragmentation_robust [10, 255] hwf 1 []⟩

/-- C2 counterexample: a single call with five zero-run chunks of 251 zeros
each drives `DecodedSpectrum` to 1255 entries, past 1024 — the loop never
stops consuming chunks. -/
theorem decoded_spectrum_exceeds_1024 :
    1024 < ((bytechunk_interpreter []
      [[251, 251], [251, 251], [251, 251], [251, 251], [251, 251]]).1).length := by
  have h251 : byte_reconstructor [251] = 251 :=
    byte_reconstructor_single 251 (by norm_num) (by norm_num) (by norm_num)
  have hpc : ∀ y : List Nat,
      processChunk y [251, 251] = (y ++ List.replicate 251 0, false) := by
    intro y
    rw [processChunk_251, show ([251, 251] : List Nat) = 251 :: 251 :: [] from rfl,
      runRLE_251_cons, h251, runRLE_nil]
  have hstep : ∀ (y : List Nat) (cs : List (List Nat)),
      bytechunk_interpreter y ([251, 251] :: cs)
        = bytechunk_interpreter (y ++ List.replicate 251 0) cs := by
    intro y cs
    rw [interp_cons, hpc]
  rw [hstep, hstep, hstep, hstep, hstep, interp_nil]
  simp only [List.nil_append, List.length_append, List.length_replicate]
  norm_num

/-- C2 amended: `bytechunk_interpreter` never stops at 1024 entries; every
chunk of the call is consumed and its decoded values appended regardless of
the current length of `DecodedSpectrum`, which therefore grows by the same
amount from any starting spectrum. -/
theorem interpreter_never_truncates (y : List Nat) (chunks : List (List Nat)) :
    bytechunk_interpreter y chunks
        = (y ++ (bytechunk_interpreter [] chunks).1,
           (bytechunk_interpreter [] chunks).2)
      ∧ (bytechunk_interpreter y chunks).1.length
        = y.length + (bytechunk_interpreter [] chunks).1.length := by
  refine ⟨interp_shift chunks y, ?_⟩
  rw [interp_shift chunks y]
  simp

/-- C3 counterexample: the chunk consisting of the single byte 251 makes the
zero-run loop read the run-length byte past the end of the chunk, raising an
`IndexError` that escapes `bytechunk_interpreter`. -/
theorem rle_chunk_index_error :
    (bytechunk_interpreter [] [[251]]).2 = true := by
  rw [interp_cons, processChunk_251, runRLE_251_nil]

/-- C3 amended: no exception escapes the decoder on chunks whose zero-run
pairs are complete — every chunk that either follows the wire grammar or
does not start with 251 is processed without an out-of-range access; a chunk
ending at a 251 in scan position (such as the single byte 251) instead
raises `IndexError`. -/
theorem no_exception_on_complete_chunks (y : List Nat) (chunks : List (List Nat))
    (h : ∀ c ∈ chunks, WFChunk c ∨ c.head? ≠ some 251) :
    (bytechunk_interpreter y chunks).2 = false := by
  induction chunks generalizing y with
  | nil => rw [interp_nil]
  | cons c cs ih =>
      have hc : chunkErr c = false := by
        rcases h c (by simp) with hw | hh
        · exact chunkErr_of_wfchunk hw
        · exact chunkErr_of_head_ne_251 hh
      rw [interp_cons, processChunk_shift c y]
      simp only [chunkErr] at hc
      rw [hc]
      exact ih _ (fun d hd => h d (by simp [hd]))

/-- Witness for C3 (amended) on the chunk list `[[251, 5], [10]]`. -/
theorem no_exception_on_complete_chunks_witness :
    (∀ c ∈ ([[251, 5], [10]] : List (List Nat)), WFChunk c ∨ c.head? ≠ some 251)
      ∧ (bytechunk_interpreter [] [[251, 5], [10]]).2 = false := by
  have hw : ∀ c ∈ ([[251, 5], [10]] : List (List Nat)),
      WFChunk c ∨ c.head? ≠ some 251 := by
    intro c hc
    simp only [List.mem_cons, List.not_mem_nil, or_false] at hc
    rcases hc with rfl | rfl
    · exact Or.inl (WFChunk.run 5 (by norm_num) (by norm_num) [] WFChunk.nilc)
    · exact Or.inr (by simp)
  exact ⟨hw, no_exception_on_complete_chunks [] _ hw⟩

set_option maxRecDepth 8000 in
/-- The decoded output for the raw buffer `[251, 251, 3, 255]`: 251 zeros
followed by the single data value 3. -/
theorem decode_251_251_3_eq :
    binaryStep ⟨[], []⟩ [251, 251, 3, 255]
      = (⟨[], List.replicate 251 0 ++ [3]⟩, false) := by
  decide

/-- C4 counterexample: the spectrum decoded from the input bytes
`[251, 251, 3, 255]` is not 254 zeros. -/
theorem decode_251_251_3_cex :
    (binaryStep ⟨[], []⟩ [251, 251, 3, 255]).1.ydata
      ≠ List.replicate 254 (0 : Nat) := by
  rw [decode_251_251_3_eq]
  intro h
  have hl := congrArg List.length h
  simp at hl

/-- C4 amended: decoding the input bytes `[251, 251, 3, 255]` appends 252
entries — 251 zeros followed by the single non-zero value 3: after the
complete run pair (251, 251), the byte 3 is read as a data value, not as a
further run of zeros. -/
theorem decode_251_251_3 :
    (binaryStep ⟨[], []⟩ [251, 251, 3, 255]).1.ydata
      = List.replicate 251 0 ++ [3] := by
  rw [decode_251_251_3_eq]

/-- C5 counterexample: with 1025 decoded values, `=>End(binary)` raises the
acquisition error even though the spectrum is not shorter than 1024 — the
check is length-not-equal, not length-below. -/
theorem overlong_spectrum_raises :
    endBinary [] (List.replicate 1025 0) = EndResult.lengthError (List.replicate 1025 0)
      ∧ ¬ (List.replicate 1025 (0 : Nat)).length < 1024 := by
  constructor
  · decide
  · simp

/-- C5 amended: at `=>End(binary)`, once the pending fragment has been
flushed without an `IndexError`, the acquisition error is raised exactly
when the resulting `DecodedSpectrum` length differs from 1024 (shortfall or
overrun alike); with exactly 1024 values no error is raised regardless of
the `Bitsum:` comparison, whose branch only ever picks a display glyph. -/
theorem end_error_iff_length_ne_1024 (frag y y' : List Nat)
    (hflush : bytechunk_interpreter y [frag] = (y', false)) :
    (endBinary frag y = EndResult.ok y' ↔ y'.length = 1024)
      ∧ (endBinary frag y = EndResult.lengthError y' ↔ y'.length ≠ 1024)
      ∧ (∀ theirs ours : Nat,
          (bitsumBranch theirs ours = "✓" ↔ theirs = ours)
            ∧ (bitsumBranch theirs ours = "≈" ↔ theirs ≠ ours)) := by
  refine ⟨?_, ?_, ?_⟩
  · rw [endBinary, hflush]
    by_cases hl : y'.length = 1024 <;> simp [hl]
  · rw [endBinary, hflush]
    by_cases hl : y'.length = 1024 <;> simp [hl]
  · intro theirs ours
    by_cases h : theirs = ours <;> simp [bitsumBranch, h]

/-- Witness for C5 (amended) at an empty fragment and a 1024-entry spectrum. -/
theorem end_error_iff_length_ne_1024_witness :
    bytechunk_interpreter (List.replicate 1024 0) [[]]
        = (List.replicate 1024 0, false)
      ∧ endBinary [] (List.replicate 1024 0)
        = EndResult.ok (List.replicate 1024 0) := by
  have hflush : bytechunk_interpreter (List.replicate 1024 0) ([[]] : List (List Nat))
      = (List.replicate 1024 0, false) := by
    rw [interp_nil_chunk_cons, interp_nil]
  refine ⟨hflush, ?_⟩
  exact (end_error_iff_length_ne_1024 [] (List.replicate 1024 0)
    (List.replicate 1024 0) hflush).1.mpr (by simp)

/-- C10 counterexample: a non-empty pending fragment `[251]` does not append
its decoded value at `=>End(binary)` — the flush raises an `IndexError`
before the 1024-entry check can run. -/
theorem end_flush_fragment_251_raises :
    endBinary [251] (List.replicate 1024 0) = EndResult.indexError
      ∧ ([251] : List Nat) ≠ [] := by
  constructor
  · decide
  · simp

/-- C10 amended: on `=>End(binary)` the decoder hands the held
`PendingFragment` to chunk interpretation as one final chunk before the
1024-entry check: an empty fragment is a no-op, a non-empty fragment whose
first byte is not 251 appends exactly its reconstructed value, and the
success outcome is exactly a clean flush followed by a length of 1024. -/
theorem end_flush_before_check (frag y : List Nat) :
    bytechunk_interpreter y [([] : List Nat)] = (y, false)
      ∧ (∀ b bs, b ≠ 251 →
          bytechunk_interpreter y [b :: bs]
            = (y ++ [byte_reconstructor (b :: bs)], false))
      ∧ (endBinary frag y = EndResult.ok (bytechunk_interpreter y [frag]).1
          ↔ (bytechunk_interpreter y [frag]).2 = false
            ∧ (bytechunk_interpreter y [frag]).1.length = 1024) := by
  refine ⟨by rw [interp_nil_chunk_cons, interp_nil], ?_, ?_⟩
  · intro b bs hb
    rw [interp_cons, processChunk_other y b bs hb]
    rfl
  · rw [endBinary]
    cases hfl : bytechunk_interpreter y [frag] with
    | mk y' e =>
        cases e
        · by_cases hl : y'.length = 1024 <;> simp [hl]
        · simp

/-- Witness for C10 (amended) at the fragment `[5]`. -/
theorem end_flush_before_check_witness :
    bytechunk_interpreter [] [[5]] = ([byte_reconstructor [5]], false)
      ∧ byte_reconstructor [5] = 5 := by
  refine ⟨?_, byte_reconstructor_single 5 (by norm_num) (by norm_num) (by norm_num)⟩
  have h := (end_flush_before_check [] []).2.1 5 [] (by norm_num)
  simpa using h

end Scintomatic
